import Mathlib

/-!
Shallow embedding of the schema-search subsystem of `mcp-graphql`
(`src/helpers/search.ts`): the type printer `printGraphQLType`, the element
collector `collectSearchableElements`, the keyword matcher
`searchSchemaElements`, and the path resolver `getElementDetails`,
together with proofs of the specification's claims about them.

The graph data model mirrors the fragment of the `graphql` library the
code consumes: a schema is a type map (iterated in insertion order, as
`Object.entries` does) plus a directive list; a named type is one of the
six concrete kinds; a type reference is a named type possibly wrapped in
non-null / list wrappers.  JS strings are modelled as Lean `String`
(a list of characters); `x || undefined` on an optional string collapses
the empty string to `none`, which is modelled explicitly.
-/

namespace McpGraphql

/-- A type reference: a named type, or a non-null / list wrapper
(`GraphQLNonNull` / `GraphQLList` in the source). -/
inductive TypeRef where
  | named (name : String)
  | nonNull (ofType : TypeRef)
  | listWrap (ofType : TypeRef)
deriving DecidableEq

/-- An argument definition (of a field or of a directive). -/
structure ArgDef where
  name : String
  argType : TypeRef
  description : Option String
deriving DecidableEq

/-- A field definition of an object or interface type. -/
structure FieldDef where
  name : String
  fieldType : TypeRef
  description : Option String
  args : List ArgDef
deriving DecidableEq

/-- A field definition of an input-object type (no arguments). -/
structure InputFieldDef where
  name : String
  fieldType : TypeRef
  description : Option String
deriving DecidableEq

/-- An enum value definition. -/
structure EnumValueDef where
  name : String
  description : Option String
deriving DecidableEq

/-- A named type definition: one of the six concrete kinds of the
`graphql` library (`GraphQLObjectType`, `GraphQLInterfaceType`,
`GraphQLUnionType`, `GraphQLEnumType`, `GraphQLInputObjectType`,
`GraphQLScalarType`).  Union members are kept by name, which is all the
source reads of them (`type.getTypes().map(t => t.name)`). -/
inductive TypeDef where
  | object (name : String) (description : Option String) (fields : List FieldDef)
  | interface (name : String) (description : Option String) (fields : List FieldDef)
  | union (name : String) (description : Option String) (possibleTypes : List String)
  | enum (name : String) (description : Option String) (values : List EnumValueDef)
  | inputObject (name : String) (description : Option String) (fields : List InputFieldDef)
  | scalar (name : String) (description : Option String)
deriving DecidableEq

/-- A directive definition. -/
structure DirectiveDef where
  name : String
  description : Option String
  args : List ArgDef
deriving DecidableEq

/-- The schema: the type map (in iteration order) and the directive list. -/
structure Schema where
  typeMap : List TypeDef
  directives : List DirectiveDef
deriving DecidableEq

/-- The name of a type definition. -/
def TypeDef.name : TypeDef → String
  | .object n _ _ => n
  | .interface n _ _ => n
  | .union n _ _ => n
  | .enum n _ _ => n
  | .inputObject n _ _ => n
  | .scalar n _ => n

/-- The description of a type definition. -/
def TypeDef.description : TypeDef → Option String
  | .object _ d _ => d
  | .interface _ d _ => d
  | .union _ d _ => d
  | .enum _ d _ => d
  | .inputObject _ d _ => d
  | .scalar _ d => d

/-- `schema.getType(name)`: lookup in the type map (keys are type names). -/
def Schema.getType (s : Schema) (n : String) : Option TypeDef :=
  s.typeMap.find? (fun t => t.name == n)

/-- `schema.getDirective(name)`: lookup in the directive list. -/
def Schema.getDirective (s : Schema) (n : String) : Option DirectiveDef :=
  s.directives.find? (fun d => d.name == n)

/-- `printGraphQLType` (search.ts lines 4-12): non-null prints the inner
reference followed by `!`, list wraps the inner reference in brackets,
a named type prints its own name. -/
def printGraphQLType : TypeRef → String
  | .nonNull t => printGraphQLType t ++ "!"
  | .listWrap t => "[" ++ printGraphQLType t ++ "]"
  | .named n => n

/-- The `elementType` discriminant of a `SearchableElement`. -/
inductive ElementType where
  | type
  | field
  | argument
  | directive
deriving DecidableEq

/-- A printed argument record `{name, type, description}` as embedded in
field / directive records. -/
structure ArgInfo where
  name : String
  argType : String
  description : Option String
deriving DecidableEq

/-- One flattened, searchable record (search.ts `SearchableElement`). -/
structure SearchableElement where
  elementType : ElementType
  name : String
  parentType : Option String
  description : Option String
  path : String
  typeKind : Option String
  returnType : Option String
  args : Option (List ArgInfo)
deriving DecidableEq

/-- JS `x || undefined` on an optional string: the empty string is falsy
and collapses to `undefined`. -/
def orUndefined : Option String → Option String
  | none => none
  | some s => if s = "" then none else some s

/-- JS `String.prototype.startsWith` on our string model. -/
def strStartsWith (s pre : String) : Bool :=
  pre.data.isPrefixOf s.data

/-- The `typeKind` string computed by the collector's chain of
`instanceof` checks (search.ts lines 34-41).  The six kinds are a closed
set in the `graphql` data model, so the `UNKNOWN` fallback of the source
is unreachable and has no constructor here. -/
def typeKindOf : TypeDef → String
  | .object _ _ _ => "OBJECT"
  | .interface _ _ _ => "INTERFACE"
  | .union _ _ _ => "UNION"
  | .enum _ _ _ => "ENUM"
  | .inputObject _ _ _ => "INPUT_OBJECT"
  | .scalar _ _ => "SCALAR"

/-- The collector's printed argument record (search.ts lines 55-59):
note the `|| undefined` on the description. -/
def argInfoOf (a : ArgDef) : ArgInfo :=
  { name := a.name
    argType := printGraphQLType a.argType
    description := orUndefined a.description }

/-- The type-level record pushed by the collector (search.ts lines 43-49). -/
def typeElement (t : TypeDef) : SearchableElement :=
  { elementType := .type
    name := t.name
    parentType := none
    description := orUndefined t.description
    path := t.name
    typeKind := some (typeKindOf t)
    returnType := none
    args := none }

/-- The field record pushed for an object/interface field
(search.ts lines 61-69). -/
def fieldElement (typeName : String) (f : FieldDef) : SearchableElement :=
  { elementType := .field
    name := f.name
    parentType := some typeName
    description := orUndefined f.description
    path := typeName ++ "." ++ f.name
    typeKind := none
    returnType := some (printGraphQLType f.fieldType)
    args := some (f.args.map argInfoOf) }

/-- The argument record pushed for one argument of an object/interface
field (search.ts lines 72-80). -/
def fieldArgElement (typeName fieldName : String) (a : ArgDef) : SearchableElement :=
  { elementType := .argument
    name := a.name
    parentType := some (typeName ++ "." ++ fieldName)
    description := orUndefined a.description
    path := typeName ++ "." ++ fieldName ++ "(" ++ a.name ++ ")"
    typeKind := none
    returnType := none
    args := none }

/-- The field record pushed for an input-object field
(search.ts lines 87-95): no `returnType`, no `args`. -/
def inputFieldElement (typeName : String) (f : InputFieldDef) : SearchableElement :=
  { elementType := .field
    name := f.name
    parentType := some typeName
    description := orUndefined f.description
    path := typeName ++ "." ++ f.name
    typeKind := none
    returnType := none
    args := none }

/-- The directive record pushed by the collector (search.ts lines 102-107). -/
def directiveElement (d : DirectiveDef) : SearchableElement :=
  { elementType := .directive
    name := d.name
    parentType := none
    description := orUndefined d.description
    path := "@" ++ d.name
    typeKind := none
    returnType := none
    args := none }

/-- The argument record pushed for one directive argument
(search.ts lines 110-117). -/
def directiveArgElement (d : DirectiveDef) (a : ArgDef) : SearchableElement :=
  { elementType := .argument
    name := a.name
    parentType := some ("@" ++ d.name)
    description := orUndefined a.description
    path := "@" ++ d.name ++ "(" ++ a.name ++ ")"
    typeKind := none
    returnType := none
    args := none }

/-- `collectSearchableElements` (search.ts lines 26-122), translated
push-for-push: the mutable `elements` array is the fold accumulator and
each `elements.push(x)` is an append.  Types are walked in map order,
introspection types (`__` prefix) are skipped, object/interface types
contribute field records each followed by its argument records,
input-object types contribute bare field records, and directives with
their argument records come after all types. -/
def collectSearchableElements (schema : Schema) : List SearchableElement :=
  let afterTypes := schema.typeMap.foldl (fun els t =>
    if strStartsWith t.name "__" then els
    else
      let els := els ++ [typeElement t]
      match t with
      | .object _ _ fields | .interface _ _ fields =>
          fields.foldl (fun els2 f =>
            (els2 ++ [fieldElement t.name f]) ++ f.args.map (fieldArgElement t.name f.name)) els
      | .inputObject _ _ fields =>
          fields.foldl (fun els2 f => els2 ++ [inputFieldElement t.name f]) els
      | _ => els) []
  schema.directives.foldl (fun els d =>
    (els ++ [directiveElement d]) ++ d.args.map (directiveArgElement d)) afterTypes

/-- The block of records contributed by one type, per the specification's
insertion-order sentence: nothing for a meta type; otherwise the type
record, then for object/interface types each field record followed
immediately by its argument records, and for input-object types each
input field record. -/
def typeElements (t : TypeDef) : List SearchableElement :=
  if strStartsWith t.name "__" then []
  else
    typeElement t ::
      (match t with
       | .object _ _ fields | .interface _ _ fields =>
           fields.flatMap (fun f =>
             fieldElement t.name f :: f.args.map (fieldArgElement t.name f.name))
       | .inputObject _ _ fields => fields.map (inputFieldElement t.name)
       | _ => [])

/-- The block of records contributed by one directive: the directive
record followed by its argument records. -/
def directiveElements (d : DirectiveDef) : List SearchableElement :=
  directiveElement d :: d.args.map (directiveArgElement d)

/-- The whitespace class of the regular expression `\s` used by the
matcher's `split(/\s+/)`: the ASCII whitespace characters plus the
no-break space (the further Unicode space separators are treated alike
by the regex engine and are not distinguished by any claim). -/
def isJsSpace (c : Char) : Bool :=
  c == ' ' || c == '\t' || c == '\n' || c == '\r' || c == '\x0b' || c == '\x0c' || c == '\u00A0'

/-- JS `String.prototype.toLowerCase` on our string model, character by
character (the code only relies on the basic-latin fragment). -/
def lowerStr (s : String) : String :=
  ⟨s.data.map Char.toLower⟩

/-- JS `str.split(/\s+/)` on the character list: split at each maximal
run of whitespace, keeping the (possibly empty) segments between runs,
exactly as the regex split does (`" a"` gives `["", "a"]`, `""` gives
`[""]`). -/
def splitRuns : List Char → List (List Char)
  | [] => [[]]
  | c :: rest =>
    let segs := splitRuns rest
    if isJsSpace c then
      match rest.head? with
      | some c2 => if isJsSpace c2 then segs else [] :: segs
      | none => [] :: segs
    else
      match segs with
      | [] => [[c]]
      | s :: ss => (c :: s) :: ss

/-- JS `str.split(sep)` for a one-character separator, on the character
list (`"a.b"` gives `["a","b"]`, `""` gives `[""]`, `"a..b"` gives
`["a","","b"]`). -/
def splitOnChar (sep : Char) : List Char → List (List Char)
  | [] => [[]]
  | c :: rest =>
    if c = sep then [] :: splitOnChar sep rest
    else
      match splitOnChar sep rest with
      | [] => [[c]]
      | s :: ss => (c :: s) :: ss

/-- JS `text.includes(pat)`: substring containment on character lists. -/
def containsSub (pat : List Char) : List Char → Bool
  | [] => pat.isEmpty
  | c :: rest => pat.isPrefixOf (c :: rest) || containsSub pat rest

/-- The keyword list of the matcher (search.ts line 125):
`query.toLowerCase().split(/\s+/).filter(k => k.length > 0)`. -/
def searchKeywords (query : String) : List (List Char) :=
  (splitRuns (lowerStr query).data).filter (fun k => 0 < k.length)

/-- The searchable text of one element (search.ts line 129):
`` `${element.name} ${element.description || ''}`.toLowerCase() ``. -/
def searchableTextOf (e : SearchableElement) : List Char :=
  (lowerStr (e.name ++ " " ++ e.description.getD "")).data

/-- `searchSchemaElements` (search.ts lines 124-132): tokenize the
query; with zero keywords return the empty list; otherwise keep the
elements whose searchable text contains every keyword. -/
def searchSchemaElements (elements : List SearchableElement) (query : String) :
    List SearchableElement :=
  let keywords := searchKeywords query
  if keywords.length = 0 then []
  else
    elements.filter (fun e =>
      keywords.all (fun k => containsSub k (searchableTextOf e)))

/-- Modelled from the claim's words for comparison: split the query on
runs of whitespace, lowercase each token, discard empty tokens. -/
def specTokens (query : String) : List (List Char) :=
  ((splitRuns query.data).map (fun t => t.map Char.toLower)).filter (fun k => 0 < k.length)

/-- Modelled from the claim's words for comparison: exactly those
elements whose searchable text contains every token, in their original
relative order, with no special case for an empty token list. -/
def searchSpec (elements : List SearchableElement) (query : String) :
    List SearchableElement :=
  elements.filter (fun e =>
    (specTokens query).all (fun k => containsSub k (searchableTextOf e)))

/-- A printed field record `{name, type, description, args}` inside an
object/interface type detail. -/
structure FieldInfo where
  name : String
  fieldType : String
  description : Option String
  args : List ArgInfo
deriving DecidableEq

/-- A printed input field record `{name, type, description}` inside an
input-object type detail. -/
structure InputFieldInfo where
  name : String
  fieldType : String
  description : Option String
deriving DecidableEq

/-- A printed enum value record `{name, description}`. -/
structure EnumValueInfo where
  name : String
  description : Option String
deriving DecidableEq

/-- The kind-specific detail record returned by `getElementDetails`
(`null` is modelled by the surrounding `Option`).  `objectTypeDetail`
carries its `kind` string (`"OBJECT"` or `"INTERFACE"`) exactly as the
source assigns it. -/
inductive DetailRecord where
  | directiveDetail (name : String) (description : Option String) (args : List ArgInfo)
  | objectTypeDetail (name : String) (description : Option String) (kind : String)
      (fields : List FieldInfo)
  | unionTypeDetail (name : String) (description : Option String)
      (possibleTypes : List String)
  | enumTypeDetail (name : String) (description : Option String)
      (values : List EnumValueInfo)
  | inputTypeDetail (name : String) (description : Option String)
      (fields : List InputFieldInfo)
  | scalarTypeDetail (name : String) (description : Option String)
  | fieldDetail (name : String) (parentType : String) (fieldType : String)
      (description : Option String) (args : List ArgInfo)
deriving DecidableEq

/-- The resolver's printed argument record (search.ts lines 148-152,
170-174, 207-211): the description is passed through verbatim, with no
`|| undefined` as in the collector. -/
def detailArgInfoOf (a : ArgDef) : ArgInfo :=
  { name := a.name
    argType := printGraphQLType a.argType
    description := a.description }

/-- The resolver's printed field record (search.ts lines 166-175). -/
def fieldInfoOf (f : FieldDef) : FieldInfo :=
  { name := f.name
    fieldType := printGraphQLType f.fieldType
    description := f.description
    args := f.args.map detailArgInfoOf }

/-- The resolver's printed input field record (search.ts lines 184-188). -/
def inputFieldInfoOf (f : InputFieldDef) : InputFieldInfo :=
  { name := f.name
    fieldType := printGraphQLType f.fieldType
    description := f.description }

/-- The kind-specific type detail built by the bare-name branch of the
resolver (search.ts lines 158-192). -/
def detailOfType : TypeDef → DetailRecord
  | .object n d fields => .objectTypeDetail n d "OBJECT" (fields.map fieldInfoOf)
  | .interface n d fields => .objectTypeDetail n d "INTERFACE" (fields.map fieldInfoOf)
  | .union n d members => .unionTypeDetail n d members
  | .enum n d values => .enumTypeDetail n d (values.map (fun v => ⟨v.name, v.description⟩))
  | .inputObject n d fields => .inputTypeDetail n d (fields.map inputFieldInfoOf)
  | .scalar n d => .scalarTypeDetail n d

/-- The fields of an object or interface type, `none` for every other
kind (the resolver's `instanceof GraphQLObjectType || instanceof
GraphQLInterfaceType` guard followed by `getFields()`). -/
def objFieldsOf : TypeDef → Option (List FieldDef)
  | .object _ _ fields => some fields
  | .interface _ _ fields => some fields
  | _ => none

/-- `getElementDetails` (search.ts lines 134-215): split the path on
dots; one part resolves a directive (leading `@`) or a type by name; two
parts resolve a field of an object/interface type; anything else is
`null`. -/
def getElementDetails (path : String) (schema : Schema) : Option DetailRecord :=
  match splitOnChar '.' path.data with
  | [nameChars] =>
    if strStartsWith (String.mk nameChars) "@" then
      match schema.getDirective (String.mk nameChars.tail) with
      | none => none
      | some d =>
          some (.directiveDetail d.name d.description (d.args.map detailArgInfoOf))
    else
      match schema.getType (String.mk nameChars) with
      | none => none
      | some t => some (detailOfType t)
  | [tnChars, fnChars] =>
    match schema.getType (String.mk tnChars) with
    | none => none
    | some t =>
      match objFieldsOf t with
      | none => none
      | some fields =>
        match fields.find? (fun f => f.name == String.mk fnChars) with
        | none => none
        | some f =>
            some (.fieldDetail f.name (String.mk tnChars)
              (printGraphQLType f.fieldType) f.description
              (f.args.map detailArgInfoOf))
  | _ => none

/-- The name carried by a detail record. -/
def DetailRecord.nameOf : DetailRecord → String
  | .directiveDetail n _ _ => n
  | .objectTypeDetail n _ _ _ => n
  | .unionTypeDetail n _ _ => n
  | .enumTypeDetail n _ _ => n
  | .inputTypeDetail n _ _ => n
  | .scalarTypeDetail n _ => n
  | .fieldDetail n _ _ _ _ => n

/-- The `elementType` discriminant carried by a detail record. -/
def DetailRecord.elementTypeOf : DetailRecord → ElementType
  | .directiveDetail _ _ _ => .directive
  | .fieldDetail _ _ _ _ _ => .field
  | _ => .type

/-- The `kind` string carried by a detail record, `none` for directive
and field records (which have no `kind` key). -/
def DetailRecord.kindOf : DetailRecord → Option String
  | .objectTypeDetail _ _ k _ => some k
  | .unionTypeDetail _ _ _ => some "UNION"
  | .enumTypeDetail _ _ _ => some "ENUM"
  | .inputTypeDetail _ _ _ => some "INPUT_OBJECT"
  | .scalarTypeDetail _ _ => some "SCALAR"
  | _ => none

/-- Whether a detail record is a directive record. -/
def DetailRecord.isDirectiveDetail : DetailRecord → Bool
  | .directiveDetail _ _ _ => true
  | _ => false

/-- Is this type definition an object or interface type? -/
def isObjectOrInterfaceType (t : TypeDef) : Bool :=
  (objFieldsOf t).isSome

/-- The object/interface field list, empty for other kinds (used to
state well-formedness of field names). -/
def objFieldsList (t : TypeDef) : List FieldDef :=
  (objFieldsOf t).getD []

/-- The input-object field list, empty for other kinds. -/
def inputFieldsOf : TypeDef → List InputFieldDef
  | .inputObject _ _ fields => fields
  | _ => []

/-- A name is dot-free: it contains no `.` character.  GraphQL names
match `[_A-Za-z][_0-9A-Za-z]*`, so names of real schemas are dot-free
and never start with `@`; the path grammar assumes exactly this. -/
def dotFree (n : String) : Prop := '.' ∉ n.data

/-- Well-formedness of a schema as the `graphql` library guarantees it:
type, field and directive names are dot-free and do not start with `@`,
and the type map, each type's field list and the directive list are
keyed by distinct names. -/
def Schema.WF (s : Schema) : Prop :=
  (∀ t ∈ s.typeMap, dotFree t.name ∧ strStartsWith t.name "@" = false ∧
      (∀ f ∈ objFieldsList t, dotFree f.name) ∧
      ((objFieldsList t).map FieldDef.name).Nodup) ∧
  (s.typeMap.map TypeDef.name).Nodup ∧
  (∀ d ∈ s.directives, dotFree d.name) ∧
  (s.directives.map DirectiveDef.name).Nodup

instance (n : String) : Decidable (dotFree n) :=
  inferInstanceAs (Decidable ('.' ∉ n.data))

instance (s : Schema) : Decidable s.WF :=
  inferInstanceAs (Decidable (_ ∧ _ ∧ _ ∧ _))

/-- Modelled from the claim's words for comparison: the exhaustive
description of when the resolver reports not-found.  Zero-dot `@` paths
fail exactly when the directive name is unknown; other zero-dot paths
fail exactly when the type name is unknown; one-dot paths fail exactly
when the type is absent, is not an object/interface, or lacks the field;
every other shape (two or more dots) always fails. -/
def resolveNotFoundSpec (path : String) (schema : Schema) : Prop :=
  match splitOnChar '.' path.data with
  | [nameChars] =>
    if strStartsWith (String.mk nameChars) "@" then
      schema.getDirective (String.mk nameChars.tail) = none
    else
      schema.getType (String.mk nameChars) = none
  | [tnChars, fnChars] =>
    schema.getType (String.mk tnChars) = none ∨
      (∀ t, schema.getType (String.mk tnChars) = some t →
        (isObjectOrInterfaceType t = false ∨
          (objFieldsList t).find? (fun f => f.name == String.mk fnChars) = none))
  | _ => True

/-- Fixture: a `User` object type with a plain field and a field taking
one argument. -/
def exUser : TypeDef :=
  .object "User" (some "A user record")
    [{ name := "id", fieldType := .nonNull (.named "ID"), description := none, args := [] },
     { name := "findUser", fieldType := .named "User",
       description := some "Find an active user",
       args := [{ name := "filter", argType := .named "String", description := none }] }]

/-- Fixture: an input-object type with one input field. -/
def exUserInput : TypeDef :=
  .inputObject "UserInput" none
    [{ name := "email", fieldType := .named "String", description := none }]

/-- Fixture: an introspection (meta) type present in the type map. -/
def exMetaType : TypeDef := .object "__Schema" none []

/-- Fixture: a directive with one argument. -/
def exDeprecated : DirectiveDef :=
  { name := "deprecated", description := some "Marks deprecated parts"
    args := [{ name := "reason", argType := .named "String", description := none }] }

/-- Fixture schema combining the above. -/
def exSchema : Schema :=
  { typeMap := [exUser, exUserInput, exMetaType, .scalar "ID" none]
    directives := [exDeprecated] }

/-- Fixture: a standalone searchable element for matcher witnesses. -/
def exElem : SearchableElement :=
  { elementType := .type, name := "User", parentType := none
    description := some "An active user", path := "User"
    typeKind := some "OBJECT", returnType := none, args := none }

end McpGraphql

namespace McpGraphql

/-- A fold whose step appends a block per item equals the flat map of
the blocks after the seed. -/
theorem foldl_append_step {α β : Type} (f : List β → α → List β) (g : α → List β)
    (hf : ∀ acc x, f acc x = acc ++ g x) :
    ∀ (l : List α) (init : List β), l.foldl f init = init ++ l.flatMap g := by
  intro l
  induction l with
  | nil => intro init; simp
  | cons x l ih =>
    intro init
    rw [List.foldl_cons, hf, ih, List.flatMap_cons, List.append_assoc]

/-- The inner field loop of the collector, as seed plus flat map. -/
theorem foldl_fieldBlocks (n : String) (fields : List FieldDef)
    (init : List SearchableElement) :
    fields.foldl (fun els2 f =>
        (els2 ++ [fieldElement n f]) ++ f.args.map (fieldArgElement n f.name)) init =
      init ++ fields.flatMap (fun f =>
        fieldElement n f :: f.args.map (fieldArgElement n f.name)) :=
  foldl_append_step _ _ (by intro acc f; simp) fields init

/-- The inner input-field loop of the collector, as seed plus map. -/
theorem foldl_inputBlocks (n : String) (fields : List InputFieldDef)
    (init : List SearchableElement) :
    fields.foldl (fun els2 f => els2 ++ [inputFieldElement n f]) init =
      init ++ fields.map (inputFieldElement n) := by
  rw [foldl_append_step _ (fun f => [inputFieldElement n f]) (by intro acc f; rfl) fields init,
    ← List.map_eq_flatMap]

/-- The collector produces, for each type in map order, that type's
block of records, followed by each directive's block of records. -/
theorem collect_eq (schema : Schema) :
    collectSearchableElements schema =
      schema.typeMap.flatMap typeElements ++
        schema.directives.flatMap directiveElements := by
  unfold collectSearchableElements
  have h1 : ∀ (els : List SearchableElement) (t : TypeDef),
      (if strStartsWith t.name "__" then els
       else
         let els' := els ++ [typeElement t]
         match t with
         | .object _ _ fields | .interface _ _ fields =>
             fields.foldl (fun els2 f =>
               (els2 ++ [fieldElement t.name f]) ++
                 f.args.map (fieldArgElement t.name f.name)) els'
         | .inputObject _ _ fields =>
             fields.foldl (fun els2 f => els2 ++ [inputFieldElement t.name f]) els'
         | _ => els') = els ++ typeElements t := by
    intro els t
    unfold typeElements
    by_cases hm : strStartsWith t.name "__"
    · simp [hm]
    · simp only [hm, if_false, Bool.false_eq_true]
      cases t with
      | object n d fields =>
        simp only [TypeDef.name, foldl_fieldBlocks]
        simp
      | interface n d fields =>
        simp only [TypeDef.name, foldl_fieldBlocks]
        simp
      | inputObject n d fields =>
        simp only [TypeDef.name, foldl_inputBlocks]
        simp
      | union n d members => simp
      | enum n d values => simp
      | scalar n d => simp
  rw [foldl_append_step _ typeElements h1 schema.typeMap []]
  rw [foldl_append_step _ directiveElements
    (by intro acc d; simp [directiveElements]) schema.directives]
  simp

/-- C6: the Type Printer is total on well-formed (finitely wrapped) type
references and satisfies the three defining equations: a non-null
wrapper prints the inner reference followed by `!`, a list wrapper
prints the inner reference in brackets, and a named type prints its own
name unchanged. -/
theorem c6_printGraphQLType_equations (t : TypeRef) (n : String) :
    printGraphQLType (.nonNull t) = printGraphQLType t ++ "!" ∧
    printGraphQLType (.listWrap t) = "[" ++ printGraphQLType t ++ "]" ∧
    printGraphQLType (.named n) = n :=
  ⟨rfl, rfl, rfl⟩

/-- C4: the Element Collector's output has exactly the insertion order:
for each type in graph iteration order (meta types skipped) the type
record, then for each of its fields the field record followed
immediately by its argument records; after all types, each directive
record followed by its argument records (`typeElements` and
`directiveElements` spell out these per-type and per-directive blocks). -/
theorem c4_collector_insertion_order (schema : Schema) :
    collectSearchableElements schema =
      schema.typeMap.flatMap typeElements ++
        schema.directives.flatMap directiveElements :=
  collect_eq schema

/-- C5: no collected record originates from a type whose name starts
with the double-underscore prefix: collecting a schema gives the same
list as collecting the schema with all such types removed from the type
map, so they, their fields and their fields' arguments are entirely
absent even when present in the type map. -/
theorem c5_meta_types_entirely_absent (tm : List TypeDef) (ds : List DirectiveDef) :
    collectSearchableElements ⟨tm, ds⟩ =
      collectSearchableElements ⟨tm.filter (fun t => !(strStartsWith t.name "__")), ds⟩ := by
  rw [collect_eq, collect_eq]
  congr 1
  induction tm with
  | nil => rfl
  | cons t tm ih =>
    rw [List.filter_cons]
    by_cases hm : strStartsWith t.name "__"
    · simp only [hm, Bool.not_true, Bool.false_eq_true, if_false, List.flatMap_cons]
      have ht : typeElements t = [] := by simp [typeElements, hm]
      rw [ht, List.nil_append, ih]
    · simp only [hm, Bool.not_false, if_true, List.flatMap_cons, ih]

/-- Packing a valid scalar value into a `Char` and reading it back is
the identity. -/
theorem char_toNat_ofNat {m : Nat} (h : m.isValidChar) : (Char.ofNat m).toNat = m := by
  simp [Char.ofNat, h, Char.ofNatAux, Char.toNat, UInt32.toNat]

/-- Membership in the whitespace class, expressed on scalar values. -/
theorem isJsSpace_iff_toNat (c : Char) :
    isJsSpace c = true ↔
      (c.toNat = 32 ∨ c.toNat = 9 ∨ c.toNat = 10 ∨ c.toNat = 13 ∨
        c.toNat = 11 ∨ c.toNat = 12 ∨ c.toNat = 160) := by
  have hinj : ∀ d : Char, c = d ↔ c.toNat = d.toNat := by
    intro d
    constructor
    · intro he; rw [he]
    · intro he
      have := Char.ofNat_toNat c
      rw [he, Char.ofNat_toNat d] at this
      exact this.symm
  unfold isJsSpace
  simp only [Bool.or_eq_true, beq_iff_eq]
  rw [hinj ' ', hinj '\t', hinj '\n', hinj '\r', hinj '\x0b', hinj '\x0c', hinj '\u00A0']
  have e1 : (' ' : Char).toNat = 32 := by decide
  have e2 : ('\t' : Char).toNat = 9 := by decide
  have e3 : ('\n' : Char).toNat = 10 := by decide
  have e4 : ('\r' : Char).toNat = 13 := by decide
  have e5 : ('\x0b' : Char).toNat = 11 := by decide
  have e6 : ('\x0c' : Char).toNat = 12 := by decide
  have e7 : ('\u00A0' : Char).toNat = 160 := by decide
  rw [e1, e2, e3, e4, e5, e6, e7]
  tauto

/-- The body of `Char.toLower`, with its local `let` unfolded. -/
theorem toLower_eq (c : Char) :
    c.toLower = if c.toNat ≥ 65 ∧ c.toNat ≤ 90 then Char.ofNat (c.toNat + 32) else c := rfl

/-- Lowercasing does not move characters into or out of the whitespace
class. -/
theorem isJsSpace_toLower (c : Char) : isJsSpace c.toLower = isJsSpace c := by
  rw [toLower_eq]
  split
  · next h =>
    have hval : (Char.ofNat (c.toNat + 32)).toNat = c.toNat + 32 :=
      char_toNat_ofNat (Or.inl (by omega))
    have h1 : isJsSpace c = false := by
      rw [← Bool.not_eq_true, isJsSpace_iff_toNat]
      omega
    have h2 : isJsSpace (Char.ofNat (c.toNat + 32)) = false := by
      rw [← Bool.not_eq_true, isJsSpace_iff_toNat, hval]
      omega
    rw [h1, h2]
  · rfl

/-- The whitespace split always yields at least one segment. -/
theorem splitRuns_ne_nil (l : List Char) : splitRuns l ≠ [] := by
  induction l with
  | nil => simp [splitRuns]
  | cons c rest ih =>
    unfold splitRuns
    by_cases hc : isJsSpace c
    · simp only [hc, if_true]
      cases rest with
      | nil => simp
      | cons c2 r2 =>
        by_cases hc2 : isJsSpace c2 <;> simp [hc2, ih]
    · simp only [hc, if_false]
      cases hs : splitRuns rest with
      | nil => simp
      | cons s ss => simp

/-- The whitespace split commutes with character-wise lowercasing. -/
theorem splitRuns_map_toLower (l : List Char) :
    splitRuns (l.map Char.toLower) = (splitRuns l).map (List.map Char.toLower) := by
  induction l with
  | nil => rfl
  | cons c rest ih =>
    rw [List.map_cons]
    unfold splitRuns
    rw [isJsSpace_toLower]
    by_cases hc : isJsSpace c
    · simp only [hc, if_true, List.head?_map]
      cases rest with
      | nil => simp [splitRuns]
      | cons c2 r2 =>
        simp only [List.head?_cons, Option.map_some']
        rw [isJsSpace_toLower]
        by_cases hc2 : isJsSpace c2
        · simp only [hc2, if_true]
          exact ih
        · simp only [hc2, if_false]
          rw [ih]
          simp
    · simp only [hc, if_false]
      rw [ih]
      cases hs : splitRuns rest with
      | nil => exact absurd hs (splitRuns_ne_nil rest)
      | cons s ss => simp

/-- The claim-side tokenizer (split, then lowercase, then drop empties)
agrees with the code's tokenizer (lowercase, then split, then drop
empties). -/
theorem specTokens_eq (q : String) : specTokens q = searchKeywords q := by
  unfold specTokens searchKeywords lowerStr
  rw [splitRuns_map_toLower]

/-- On an all-whitespace string every split segment is empty. -/
theorem splitRuns_all_space (l : List Char) (h : ∀ c ∈ l, isJsSpace c = true) :
    ∀ s ∈ splitRuns l, s = [] := by
  induction l with
  | nil =>
    intro s hs
    simp [splitRuns] at hs
    exact hs
  | cons c rest ih =>
    intro s hs
    have hc : isJsSpace c = true := h c (by simp)
    unfold splitRuns at hs
    simp only [hc, if_true] at hs
    cases rest with
    | nil => simpa [splitRuns] using hs
    | cons c2 r2 =>
      have hc2 : isJsSpace c2 = true := h c2 (by simp)
      simp only [List.head?_cons, hc2, if_true] at hs
      exact ih (fun d hd => h d (List.mem_cons_of_mem c hd)) s hs

/-- A whitespace-only query tokenizes to zero keywords. -/
theorem searchKeywords_all_space (q : String) (h : ∀ c ∈ q.data, isJsSpace c = true) :
    searchKeywords q = [] := by
  unfold searchKeywords
  rw [List.filter_eq_nil_iff]
  intro s hs
  have hsp : ∀ c ∈ (lowerStr q).data, isJsSpace c = true := by
    intro c hc
    simp only [lowerStr, List.mem_map] at hc
    obtain ⟨c0, hc0, rfl⟩ := hc
    rw [isJsSpace_toLower]
    exact h c0 hc0
  have := splitRuns_all_space _ hsp s hs
  simp [this]

/-- The keyword list is invariant (as a Boolean conjunction) under
permutation. -/
theorem all_eq_of_perm {α : Type} (p : α → Bool) {l1 l2 : List α}
    (h : l1.Perm l2) : l1.all p = l2.all p := by
  rw [Bool.eq_iff_iff]
  simp only [List.all_eq_true]
  constructor
  · intro ha x hx
    exact ha x (h.mem_iff.mpr hx)
  · intro ha x hx
    exact ha x (h.mem_iff.mp hx)

/-- C7: a query that is empty or consists only of whitespace yields zero
keywords, and the matcher returns the empty list — never the full input
list, and without raising an error. -/
theorem c7_empty_query_matches_nothing (E : List SearchableElement) (q : String)
    (h : ∀ c ∈ q.data, isJsSpace c = true) :
    searchSchemaElements E q = [] := by
  unfold searchSchemaElements
  rw [searchKeywords_all_space q h]
  rfl

/-- Witness for C7 at the whitespace-only query `" \t "`. -/
theorem c7_empty_query_matches_nothing_witness :
    (∀ c ∈ (" \t " : String).data, isJsSpace c = true) ∧
      searchSchemaElements [exElem] " \t " = [] :=
  ⟨by decide, c7_empty_query_matches_nothing [exElem] " \t " (by decide)⟩

/-- C8: keyword search is order-independent across tokens: queries whose
token sequences are permutations of each other give the same result. -/
theorem c8_search_token_order_independent (E : List SearchableElement)
    (q1 q2 : String) (h : (specTokens q1).Perm (specTokens q2)) :
    searchSchemaElements E q1 = searchSchemaElements E q2 := by
  unfold searchSchemaElements
  rw [← specTokens_eq, ← specTokens_eq]
  have hlen := h.length_eq
  by_cases h0 : (specTokens q1).length = 0
  · simp [h0, ← hlen]
  · have h2 : ¬((specTokens q2).length = 0) := by omega
    simp only [h0, h2, if_false]
    apply List.filter_congr
    intro e _
    exact all_eq_of_perm _ h

/-- Witness for C8 at the queries `"user active"` and `"active user"`. -/
theorem c8_search_token_order_independent_witness :
    (specTokens "user active").Perm (specTokens "active user") ∧
      searchSchemaElements [exElem] "user active" =
        searchSchemaElements [exElem] "active user" :=
  ⟨by decide,
    c8_search_token_order_independent [exElem] "user active" "active user" (by decide)⟩

/-- C2, counterexample: on the empty query the claim's characterization
("exactly those elements whose text contains every token" — vacuously
all of them when zero tokens remain) disagrees with the code, which
returns the empty list. -/
theorem c2_counterexample_empty_query :
    searchSchemaElements [exElem] "" ≠ searchSpec [exElem] "" := by
  decide

/-- C2 as amended: when at least one usable token remains after
tokenization, the matcher returns exactly those elements, in their
original relative order, whose lowercased `name`-space-`description`
text contains every lowercased token as a substring; with zero tokens it
returns the empty list instead of the whole input. -/
theorem c2_search_filters_by_all_tokens (E : List SearchableElement) (q : String)
    (h : searchKeywords q ≠ []) :
    searchSchemaElements E q = searchSpec E q := by
  unfold searchSchemaElements searchSpec
  rw [specTokens_eq]
  have hlen : ¬((searchKeywords q).length = 0) := by
    simpa [List.length_eq_zero] using h
  simp only [hlen, if_false]

/-- Witness for the amended C2 at the query `"user"`. -/
theorem c2_search_filters_by_all_tokens_witness :
    searchKeywords "user" ≠ [] ∧
      searchSchemaElements [exElem] "user" = searchSpec [exElem] "user" :=
  ⟨by decide, c2_search_filters_by_all_tokens [exElem] "user" (by decide)⟩

/-- Rebuilding a string from its character list is the identity. -/
theorem string_mk_data (s : String) : String.mk s.data = s := rfl

/-- A leading-`@` test on a rebuilt string, in terms of the head
character. -/
theorem startsWith_at_iff (l : List Char) :
    strStartsWith (String.mk l) "@" = true ↔ l.head? = some '@' := by
  cases l with
  | nil => decide
  | cons c r =>
    show ("@".data.isPrefixOf (c :: r)) = true ↔ some c = some '@'
    have h1 : "@".data = ['@'] := rfl
    rw [h1]
    show ('@' == c && List.isPrefixOf [] r) = true ↔ some c = some '@'
    simp only [Bool.and_eq_true, beq_iff_eq]
    constructor
    · rintro ⟨h2, _⟩
      rw [h2]
    · intro h2
      injection h2 with h2
      exact ⟨h2.symm, List.isPrefixOf_nil_left⟩

/-- Splitting a list free of the separator yields the singleton segment. -/
theorem splitOnChar_not_mem {sep : Char} : ∀ {l : List Char}, sep ∉ l →
    splitOnChar sep l = [l] := by
  intro l
  induction l with
  | nil => intro _; rfl
  | cons c rest ih =>
    intro h
    unfold splitOnChar
    have hc : ¬(c = sep) := fun he => h (he ▸ List.mem_cons_self c rest)
    rw [if_neg hc, ih (fun hm => h (List.mem_cons_of_mem c hm))]

/-- The one-step unfolding of `splitOnChar` on a cons cell. -/
theorem splitOnChar_cons (sep c : Char) (rest : List Char) :
    splitOnChar sep (c :: rest) =
      if c = sep then [] :: splitOnChar sep rest
      else
        match splitOnChar sep rest with
        | [] => [[c]]
        | s :: ss => (c :: s) :: ss := rfl

/-- Splitting peels off a separator-free chunk before a separator. -/
theorem splitOnChar_append {sep : Char} : ∀ {a : List Char}, sep ∉ a →
    ∀ (b : List Char), splitOnChar sep (a ++ sep :: b) = a :: splitOnChar sep b := by
  intro a
  induction a with
  | nil =>
    intro _ b
    show splitOnChar sep (sep :: b) = [] :: splitOnChar sep b
    rw [splitOnChar_cons, if_pos rfl]
  | cons c a ih =>
    intro h b
    rw [List.cons_append, splitOnChar_cons]
    have hc : ¬(c = sep) := fun he => h (he ▸ List.mem_cons_self c a)
    rw [if_neg hc, ih (fun hm => h (List.mem_cons_of_mem c hm)) b]

/-- In a list with duplicate-free keys, searching for a member's key
finds exactly that member. -/
theorem find?_key_nodup {α : Type} (key : α → String) : ∀ {l : List α} {x : α},
    (l.map key).Nodup → x ∈ l → l.find? (fun y => key y == key x) = some x := by
  intro l
  induction l with
  | nil => intro x _ hx; cases hx
  | cons a l ih =>
    intro x hn hx
    rw [List.map_cons, List.nodup_cons] at hn
    by_cases hb : key a = key x
    · have hax : x = a := by
        rcases List.mem_cons.mp hx with h | h
        · exact h
        · exact absurd (hb ▸ List.mem_map_of_mem key h) hn.1
      rw [List.find?_cons_of_pos _ (by simp [hb]), hax]
    · have hxl : x ∈ l := by
        rcases List.mem_cons.mp hx with h | h
        · exact absurd (h ▸ rfl) hb
        · exact h
      rw [List.find?_cons_of_neg _ (by simp [hb]), ih hn.2 hxl]

/-- The resolver on a dot-free, non-`@` path: a plain type lookup. -/
theorem getElementDetails_no_dot (schema : Schema) (n : String)
    (hdot : '.' ∉ n.data) (hat : strStartsWith n "@" = false) :
    getElementDetails n schema = Option.map detailOfType (schema.getType n) := by
  unfold getElementDetails
  rw [splitOnChar_not_mem hdot]
  simp only [string_mk_data, hat, Bool.false_eq_true, if_false]
  cases schema.getType n <;> rfl

/-- The resolver on a decorated `@name` path with a dot-free name:
a plain directive lookup. -/
theorem getElementDetails_at_path (schema : Schema) (dn : String)
    (hdot : '.' ∉ dn.data) :
    getElementDetails ("@" ++ dn) schema =
      Option.map (fun d => DetailRecord.directiveDetail d.name d.description
        (d.args.map detailArgInfoOf)) (schema.getDirective dn) := by
  unfold getElementDetails
  have hdata : ("@" ++ dn).data = '@' :: dn.data := rfl
  rw [hdata]
  have hnd : '.' ∉ '@' :: dn.data := by
    intro hm
    rcases List.mem_cons.mp hm with h | h
    · exact absurd h (by decide)
    · exact hdot h
  rw [splitOnChar_not_mem hnd]
  have hat : strStartsWith (String.mk ('@' :: dn.data)) "@" = true :=
    (startsWith_at_iff _).mpr rfl
  simp only [hat, if_true, List.tail_cons, string_mk_data]
  cases schema.getDirective dn <;> rfl

/-- The resolver on a one-dot path built from dot-free names: type
lookup, object/interface check, then field lookup. -/
theorem getElementDetails_one_dot (schema : Schema) (tn fn : String)
    (htn : '.' ∉ tn.data) (hfn : '.' ∉ fn.data) :
    getElementDetails (tn ++ "." ++ fn) schema =
      (match schema.getType tn with
       | none => none
       | some t =>
         match objFieldsOf t with
         | none => none
         | some fields =>
           match fields.find? (fun f => f.name == fn) with
           | none => none
           | some f =>
               some (.fieldDetail f.name tn (printGraphQLType f.fieldType)
                 f.description (f.args.map detailArgInfoOf))) := by
  unfold getElementDetails
  have hdata : (tn ++ "." ++ fn).data = tn.data ++ '.' :: fn.data := by
    rw [String.data_append, String.data_append]
    simp
  rw [hdata, splitOnChar_append htn fn.data, splitOnChar_not_mem hfn]

/-- C3: the Path Resolver is total (it returns an explicit absence value
rather than throwing) and returns the not-found sentinel exactly under
the conditions of the three-shape grammar: for two or more dots always;
for an `@`-prefixed zero-dot path exactly when the directive name is
unknown; for a bare zero-dot name exactly when the type name is unknown;
for a one-dot path exactly when the type is absent, is not an
object/interface, or lacks the field. -/
theorem c3_resolver_notFound_characterization (schema : Schema) (path : String) :
    getElementDetails path schema = none ↔ resolveNotFoundSpec path schema := by
  unfold getElementDetails resolveNotFoundSpec
  cases hp : splitOnChar '.' path.data with
  | nil => simp
  | cons a parts =>
    cases parts with
    | nil =>
      by_cases hat : strStartsWith (String.mk a) "@" = true
      · simp only [hat, if_true]
        cases schema.getDirective (String.mk a.tail) <;> simp
      · simp only [hat, Bool.false_eq_true, if_false]
        cases schema.getType (String.mk a) <;> simp
    | cons b parts2 =>
      cases parts2 with
      | nil =>
        cases ht : schema.getType (String.mk a) with
        | none => simp [ht]
        | some t =>
          simp only [ht]
          cases hf : objFieldsOf t with
          | none =>
            simp only [hf]
            constructor
            · intro _
              right
              intro t' ht'
              injection ht' with ht''
              subst ht''
              left
              simp [isObjectOrInterfaceType, hf]
            · intro _
              trivial
          | some fields =>
            simp only [hf]
            cases hfind : fields.find? (fun f => f.name == String.mk b) with
            | none =>
              simp only [hfind]
              constructor
              · intro _
                right
                intro t' ht'
                injection ht' with ht''
                subst ht''
                right
                simp only [objFieldsList, hf, Option.getD_some]
                exact hfind
              · intro _
                trivial
            | some f =>
              simp only [hfind]
              constructor
              · intro habs
                exact absurd habs (by simp)
              · intro hrhs
                exfalso
                rcases hrhs with h | h
                · exact Option.noConfusion h
                · rcases h t rfl with h1 | h1
                  · rw [isObjectOrInterfaceType, hf] at h1
                    exact Bool.noConfusion h1
                  · rw [objFieldsList, hf, Option.getD_some, hfind] at h1
                    exact Option.noConfusion h1
      | cons c parts3 => simp

/-- Decomposition of membership in one type's block of records. -/
theorem mem_typeElements {t : TypeDef} {e : SearchableElement} (he : e ∈ typeElements t) :
    strStartsWith t.name "__" = false ∧
      (e = typeElement t ∨
       (∃ f ∈ objFieldsList t,
          e = fieldElement t.name f ∨ ∃ a ∈ f.args, e = fieldArgElement t.name f.name a) ∨
       (∃ f ∈ inputFieldsOf t, e = inputFieldElement t.name f)) := by
  unfold typeElements at he
  by_cases hm : strStartsWith t.name "__"
  · simp [hm] at he
  · have hm' : strStartsWith t.name "__" = false := by simpa using hm
    rw [if_neg hm] at he
    refine ⟨hm', ?_⟩
    rcases List.mem_cons.mp he with h | h
    · exact Or.inl h
    · cases t with
      | object n d fields =>
        right; left
        rcases List.mem_flatMap.mp h with ⟨f, hf, hfe⟩
        refine ⟨f, by simpa [objFieldsList, objFieldsOf] using hf, ?_⟩
        rcases List.mem_cons.mp hfe with h1 | h1
        · exact Or.inl h1
        · right
          rcases List.mem_map.mp h1 with ⟨a, ha, rfl⟩
          exact ⟨a, ha, rfl⟩
      | interface n d fields =>
        right; left
        rcases List.mem_flatMap.mp h with ⟨f, hf, hfe⟩
        refine ⟨f, by simpa [objFieldsList, objFieldsOf] using hf, ?_⟩
        rcases List.mem_cons.mp hfe with h1 | h1
        · exact Or.inl h1
        · right
          rcases List.mem_map.mp h1 with ⟨a, ha, rfl⟩
          exact ⟨a, ha, rfl⟩
      | inputObject n d fields =>
        right; right
        rcases List.mem_map.mp h with ⟨f, hf, rfl⟩
        exact ⟨f, by simpa [inputFieldsOf] using hf, rfl⟩
      | union n d members => cases h
      | enum n d values => cases h
      | scalar n d => cases h

/-- Decomposition of membership in one directive's block of records. -/
theorem mem_directiveElements {d : DirectiveDef} {e : SearchableElement}
    (he : e ∈ directiveElements d) :
    e = directiveElement d ∨ ∃ a ∈ d.args, e = directiveArgElement d a := by
  unfold directiveElements at he
  rcases List.mem_cons.mp he with h | h
  · exact Or.inl h
  · right
    rcases List.mem_map.mp h with ⟨a, ha, rfl⟩
    exact ⟨a, ha, rfl⟩

/-- C9: the resolver discriminates by dot count before checking for a
leading `@`: a path splitting into two or more segments is never
resolved as a directive (the returned record, if any, is a field
record), and a one-dot path whose first segment starts with `@` is
looked up as a type literally so named, hence resolves to not-found
whenever no type name in the graph starts with `@`. -/
theorem c9_dot_count_before_at (schema : Schema) (path : String)
    (hdot : 2 ≤ (splitOnChar '.' path.data).length) :
    (∀ r, getElementDetails path schema = some r → r.isDirectiveDetail = false) ∧
      (∀ tnChars fnChars, splitOnChar '.' path.data = [tnChars, fnChars] →
        tnChars.head? = some '@' →
        (∀ t ∈ schema.typeMap, strStartsWith t.name "@" = false) →
        getElementDetails path schema = none) := by
  constructor
  · intro r hr
    unfold getElementDetails at hr
    rcases hsp : splitOnChar '.' path.data with _ | ⟨a, rest⟩
    · rw [hsp] at hdot
      simp at hdot
    · cases rest with
      | nil =>
        rw [hsp] at hdot
        simp at hdot
      | cons b rest2 =>
        cases rest2 with
        | nil =>
          rw [hsp] at hr
          cases ht : schema.getType (String.mk a) with
          | none =>
            simp only [ht] at hr
            cases hr
          | some t =>
            simp only [ht] at hr
            cases hf : objFieldsOf t with
            | none =>
              simp only [hf] at hr
              cases hr
            | some fields =>
              simp only [hf] at hr
              cases hfind : fields.find? (fun f => f.name == String.mk b) with
              | none =>
                simp only [hfind] at hr
                cases hr
              | some f =>
                simp only [hfind] at hr
                injection hr with hr'
                subst hr'
                rfl
        | cons c rest3 =>
          rw [hsp] at hr
          cases hr
  · intro tnC fnC hp hat hno
    unfold getElementDetails
    rw [hp]
    have hget : schema.getType (String.mk tnC) = none := by
      unfold Schema.getType
      rw [List.find?_eq_none]
      intro t ht hbeq
      have hname : t.name = String.mk tnC := by simpa using hbeq
      have h1 := hno t ht
      rw [hname] at h1
      have h2 := (startsWith_at_iff tnC).mpr hat
      rw [h1] at h2
      exact Bool.noConfusion h2
    simp [hget]

/-- Witness for C9 at the path `"@d.x"` against the fixture schema. -/
theorem c9_dot_count_before_at_witness :
    2 ≤ (splitOnChar '.' ("@d.x" : String).data).length ∧
      getElementDetails "@d.x" exSchema = none :=
  ⟨by decide,
    (c9_dot_count_before_at exSchema "@d.x" (by decide)).2
      ['@', 'd'] ['x'] (by decide) (by decide) (by decide)⟩

/-- C10: the resolver applies no meta-type filter: a bare
double-underscore type name present in the type map resolves to that
type's detail record, even though the collector emits no type record
under that name. -/
theorem c10_resolver_no_meta_filter (schema : Schema) (n : String) (t : TypeDef)
    (hdot : '.' ∉ n.data)
    (hmeta : strStartsWith n "__" = true)
    (hget : schema.getType n = some t) :
    getElementDetails n schema = some (detailOfType t) ∧
      ∀ e ∈ collectSearchableElements schema,
        e.elementType = ElementType.type → e.name ≠ n := by
  have hat : strStartsWith n "@" = false := by
    unfold strStartsWith at hmeta ⊢
    cases hd : n.data with
    | nil =>
      rw [hd] at hmeta
      exact absurd hmeta (by decide)
    | cons c r =>
      rw [hd] at hmeta
      have hm2 : ('_' == c && List.isPrefixOf ['_'] r) = true := hmeta
      have hc : c = '_' := (beq_iff_eq.mp (Bool.and_eq_true_iff.mp hm2).1).symm
      subst hc
      show ('@' == '_' && List.isPrefixOf [] r) = false
      have h64 : ('@' == '_') = false := by decide
      rw [h64, Bool.false_and]
  constructor
  · rw [getElementDetails_no_dot schema n hdot hat, hget]
    rfl
  · intro e he het
    rw [collect_eq] at he
    rcases List.mem_append.mp he with h | h
    · rcases List.mem_flatMap.mp h with ⟨t', ht', he'⟩
      rcases mem_typeElements he' with ⟨hm', hcase⟩
      rcases hcase with h1 | h1 | h1
      · subst h1
        intro hn
        have hn' : t'.name = n := hn
        rw [hn', hmeta] at hm'
        exact Bool.noConfusion hm'
      · rcases h1 with ⟨f, hf, h2 | h2⟩
        · subst h2
          exact ElementType.noConfusion het
        · rcases h2 with ⟨a, ha, rfl⟩
          exact ElementType.noConfusion het
      · rcases h1 with ⟨f, hf, rfl⟩
        exact ElementType.noConfusion het
    · rcases List.mem_flatMap.mp h with ⟨d, hd, he'⟩
      rcases mem_directiveElements he' with h1 | ⟨a, ha, rfl⟩
      · subst h1
        exact ElementType.noConfusion het
      · exact ElementType.noConfusion het

/-- Witness for C10 at the meta type `__Schema` of the fixture schema. -/
theorem c10_resolver_no_meta_filter_witness :
    ('.' ∉ ("__Schema" : String).data) ∧
      strStartsWith "__Schema" "__" = true ∧
      exSchema.getType "__Schema" = some exMetaType ∧
      (getElementDetails "__Schema" exSchema = some (detailOfType exMetaType) ∧
        ∀ e ∈ collectSearchableElements exSchema,
          e.elementType = ElementType.type → e.name ≠ "__Schema") :=
  ⟨by decide, by decide, by decide,
    c10_resolver_no_meta_filter exSchema "__Schema" exMetaType
      (by decide) (by decide) (by decide)⟩

/-- Lookup of a member type by its own name under duplicate-free names. -/
theorem getType_self {schema : Schema} {t : TypeDef}
    (hn : (schema.typeMap.map TypeDef.name).Nodup) (ht : t ∈ schema.typeMap) :
    schema.getType t.name = some t :=
  find?_key_nodup TypeDef.name hn ht

/-- Lookup of a member directive by its own name under duplicate-free
names. -/
theorem getDirective_self {schema : Schema} {d : DirectiveDef}
    (hn : (schema.directives.map DirectiveDef.name).Nodup) (hd : d ∈ schema.directives) :
    schema.getDirective d.name = some d :=
  find?_key_nodup DirectiveDef.name hn hd

/-- The name carried by a bare-name type detail. -/
theorem nameOf_detailOfType (t : TypeDef) : (detailOfType t).nameOf = t.name := by
  cases t <;> rfl

/-- A bare-name type detail is a type record. -/
theorem elementTypeOf_detailOfType (t : TypeDef) :
    (detailOfType t).elementTypeOf = ElementType.type := by
  cases t <;> rfl

/-- The kind string carried by a bare-name type detail matches the
collector's `typeKind`. -/
theorem kindOf_detailOfType (t : TypeDef) :
    (detailOfType t).kindOf = some (typeKindOf t) := by
  cases t <;> rfl

/-- C1, counterexample: the collector emits an argument record for the
directive argument `@deprecated(reason)` of the fixture schema, but
feeding its path to the resolver yields the not-found sentinel, not a
detail record. -/
theorem c1_counterexample_argument_record :
    directiveArgElement exDeprecated ⟨"reason", .named "String", none⟩ ∈
        collectSearchableElements exSchema ∧
      getElementDetails
        (directiveArgElement exDeprecated ⟨"reason", .named "String", none⟩).path
        exSchema = none := by
  decide

/-- C1 as amended: over a well-formed graph (names dot-free, not
starting with `@`, and duplicate-free, as the `graphql` library and the
spec's path grammar assume), every collected record that is a type
record, a directive record, or a field record carrying a `returnType`
(i.e. an object/interface field) round-trips through the Path Resolver
to a detail record with the same name, the same element kind, and the
same type kind.  Argument records and input-object field records do not
round-trip: the resolver's grammar cannot address them. -/
theorem c1_roundtrip_for_addressable_records (schema : Schema) (e : SearchableElement)
    (hwf : schema.WF)
    (he : e ∈ collectSearchableElements schema)
    (hkind : e.elementType = ElementType.type ∨ e.elementType = ElementType.directive ∨
      (e.elementType = ElementType.field ∧ e.returnType ≠ none)) :
    ∃ r, getElementDetails e.path schema = some r ∧
      r.nameOf = e.name ∧ r.elementTypeOf = e.elementType ∧ r.kindOf = e.typeKind := by
  obtain ⟨hT, hTnodup, hD, hDnodup⟩ := hwf
  rw [collect_eq] at he
  rcases List.mem_append.mp he with h | h
  · rcases List.mem_flatMap.mp h with ⟨t, ht, he'⟩
    rcases mem_typeElements he' with ⟨hm, hcase⟩
    obtain ⟨hdotT, hatT, hfdot, hfnodup⟩ := hT t ht
    rcases hcase with h1 | h1 | h1
    · subst h1
      refine ⟨detailOfType t, ?_, nameOf_detailOfType t, elementTypeOf_detailOfType t,
        kindOf_detailOfType t⟩
      show getElementDetails t.name schema = some (detailOfType t)
      rw [getElementDetails_no_dot schema t.name hdotT hatT, getType_self hTnodup ht]
      rfl
    · rcases h1 with ⟨f, hfmem, h2 | h2⟩
      · subst h2
        obtain ⟨fields, hof, hfin⟩ : ∃ fields, objFieldsOf t = some fields ∧ f ∈ fields := by
          cases hof : objFieldsOf t with
          | none =>
            rw [objFieldsList, hof] at hfmem
            cases hfmem
          | some fields =>
            rw [objFieldsList, hof, Option.getD_some] at hfmem
            exact ⟨fields, rfl, hfmem⟩
        refine ⟨.fieldDetail f.name t.name (printGraphQLType f.fieldType) f.description
          (f.args.map detailArgInfoOf), ?_, rfl, rfl, rfl⟩
        show getElementDetails (t.name ++ "." ++ f.name) schema = _
        rw [getElementDetails_one_dot schema t.name f.name hdotT (hfdot f hfmem)]
        have hfindf : fields.find? (fun f2 => f2.name == f.name) = some f := by
          have hnodupf : (fields.map FieldDef.name).Nodup := by
            rw [objFieldsList, hof, Option.getD_some] at hfnodup
            exact hfnodup
          exact find?_key_nodup FieldDef.name hnodupf hfin
        simp only [getType_self hTnodup ht, hof, hfindf]
      · rcases h2 with ⟨a, ha, rfl⟩
        rcases hkind with hk | hk | ⟨hk, _⟩ <;> exact ElementType.noConfusion hk
    · rcases h1 with ⟨f, hfmem, rfl⟩
      rcases hkind with hk | hk | ⟨_, hrt⟩
      · exact ElementType.noConfusion hk
      · exact ElementType.noConfusion hk
      · exact absurd rfl hrt
  · rcases List.mem_flatMap.mp h with ⟨d, hd, he'⟩
    rcases mem_directiveElements he' with h1 | ⟨a, ha, rfl⟩
    · subst h1
      refine ⟨.directiveDetail d.name d.description (d.args.map detailArgInfoOf),
        ?_, rfl, rfl, rfl⟩
      show getElementDetails ("@" ++ d.name) schema = _
      rw [getElementDetails_at_path schema d.name (hD d hd), getDirective_self hDnodup hd]
      rfl
    · rcases hkind with hk | hk | ⟨hk, _⟩ <;> exact ElementType.noConfusion hk

/-- Witness for the amended C1 at the `User` type record of the fixture
schema. -/
theorem c1_roundtrip_for_addressable_records_witness :
    Schema.WF exSchema ∧
      typeElement exUser ∈ collectSearchableElements exSchema ∧
      ((typeElement exUser).elementType = ElementType.type ∨
        (typeElement exUser).elementType = ElementType.directive ∨
        ((typeElement exUser).elementType = ElementType.field ∧
          (typeElement exUser).returnType ≠ none)) ∧
      ∃ r, getElementDetails (typeElement exUser).path exSchema = some r ∧
        r.nameOf = (typeElement exUser).name ∧
        r.elementTypeOf = (typeElement exUser).elementType ∧
        r.kindOf = (typeElement exUser).typeKind :=
  ⟨by decide, by decide, by decide,
    c1_roundtrip_for_addressable_records exSchema (typeElement exUser)
      (by decide) (by decide) (by decide)⟩

end McpGraphql
